import Mathlib

/-!
Verification of the Garcon `gwt` JWT verifier (`src/gwt/verifier.go`,
`src/gwt/claims.go`) against its natural-language specification.

Bytes are modelled as `List Nat` (each element a byte value).  Go slices
`b[:n]`, `b[n:]` become `List.take` / `List.drop`; Go's `-1` index
sentinels are modelled with `Int`.  External cryptographic primitives
(SHA digests, HMAC compression, x509 DER parsing) are abstract function
parameters: the properties proved here do not depend on their internals,
only on the surrounding control flow, which is translated from the
source.
-/

namespace Garcon

/-- Go `bytes.Equal`: structural byte-string equality. -/
def bytesEqual : List Nat → List Nat → Bool
  | [], [] => true
  | a :: as, b :: bs => a == b && bytesEqual as bs
  | _, _ => false

theorem bytesEqual_refl (l : List Nat) : bytesEqual l l = true := by
  induction l with
  | nil => rfl
  | cons a as ih => simp [bytesEqual, ih]

theorem bytesEqual_eq_true_iff (a b : List Nat) : bytesEqual a b = true ↔ a = b := by
  induction a generalizing b with
  | nil => cases b <;> simp [bytesEqual]
  | cons x xs ih =>
    cases b with
    | nil => simp [bytesEqual]
    | cons y ys => simp [bytesEqual, ih]

/-- Value of one base64url character (`A-Z a-z 0-9 - _`), or `none` when the
byte is not in the URL-safe alphabet. -/
def b64Val (c : Nat) : Option Nat :=
  if 65 ≤ c ∧ c ≤ 90 then some (c - 65)        -- A-Z
  else if 97 ≤ c ∧ c ≤ 122 then some (c - 97 + 26)  -- a-z
  else if 48 ≤ c ∧ c ≤ 57 then some (c - 48 + 52)   -- 0-9
  else if c = 45 then some 62                   -- -
  else if c = 95 then some 63                   -- _
  else none

/-- Character for one 6-bit value in the base64url alphabet. -/
def b64Char (v : Nat) : Nat :=
  if v ≤ 25 then 65 + v
  else if v ≤ 51 then 97 + (v - 26)
  else if v ≤ 61 then 48 + (v - 52)
  else if v = 62 then 45
  else 95

/-- `turbo64.RawURLEncoding.Encode`: unpadded base64url encoding,
three input bytes per four output characters. -/
def b64Encode : List Nat → List Nat
  | [] => []
  | [b0] => [b64Char (b0 / 4), b64Char (b0 % 4 * 16)]
  | [b0, b1] => [b64Char (b0 / 4), b64Char (b0 % 4 * 16 + b1 / 16),
                 b64Char (b1 % 16 * 4)]
  | b0 :: b1 :: b2 :: rest =>
    b64Char (b0 / 4) :: b64Char (b0 % 4 * 16 + b1 / 16) ::
    b64Char (b1 % 16 * 4 + b2 / 64) :: b64Char (b2 % 64) :: b64Encode rest

/-- Functional semantics of `turbo64.RawURLEncoding.Decode` into a fresh
output buffer: unpadded base64url decoding, four characters per three
bytes, a two/three-character tail giving one/two bytes, and failure on a
length-one tail or any byte outside the alphabet. -/
def b64DecodePure : List Nat → Option (List Nat)
  | [] => some []
  | [_] => none
  | [c0, c1] => do
    let v0 ← b64Val c0
    let v1 ← b64Val c1
    pure [v0 * 4 + v1 / 16]
  | [c0, c1, c2] => do
    let v0 ← b64Val c0
    let v1 ← b64Val c1
    let v2 ← b64Val c2
    pure [v0 * 4 + v1 / 16, v1 % 16 * 16 + v2 / 4]
  | c0 :: c1 :: c2 :: c3 :: rest => do
    let v0 ← b64Val c0
    let v1 ← b64Val c1
    let v2 ← b64Val c2
    let v3 ← b64Val c3
    let tail ← b64DecodePure rest
    pure ((v0 * 4 + v1 / 16) :: (v1 % 16 * 16 + v2 / 4) :: (v2 % 4 * 64 + v3) :: tail)

/-- The in-place run of the base64url decoder used by `B64Decode` when
`reuse=true`: the output is written into the same buffer the input is
read from.  `s` is the read position, `d` the write position; each step
reads the four source bytes first, then writes the three decoded bytes.
Returns the final buffer and the end of the written area. -/
def decodeInPlace (buf : List Nat) (s d : Nat) : Option (List Nat × Nat) :=
  match hLen : buf.length - s with
  | 0 => some (buf, d)
  | 1 => none
  | 2 => do
    let v0 ← b64Val (buf.getD s 0)
    let v1 ← b64Val (buf.getD (s + 1) 0)
    pure (buf.set d (v0 * 4 + v1 / 16), d + 1)
  | 3 => do
    let v0 ← b64Val (buf.getD s 0)
    let v1 ← b64Val (buf.getD (s + 1) 0)
    let v2 ← b64Val (buf.getD (s + 2) 0)
    pure (((buf.set d (v0 * 4 + v1 / 16)).set (d + 1) (v1 % 16 * 16 + v2 / 4)), d + 2)
  | _ + 4 => do
    let v0 ← b64Val (buf.getD s 0)
    let v1 ← b64Val (buf.getD (s + 1) 0)
    let v2 ← b64Val (buf.getD (s + 2) 0)
    let v3 ← b64Val (buf.getD (s + 3) 0)
    let buf2 := ((buf.set d (v0 * 4 + v1 / 16)).set (d + 1)
        (v1 % 16 * 16 + v2 / 4)).set (d + 2) (v2 % 4 * 64 + v3)
    decodeInPlace buf2 (s + 4) (d + 3)
  termination_by buf.length - s
  decreasing_by
    simp only [List.length_set]
    omega

/-- `B64Decode(b64, reuse)` from `verifier.go`: with `reuse=false` the
decoder writes into a freshly allocated buffer (functional result
`b64DecodePure`); with `reuse=true` it decodes in place into the input
buffer and returns the written sub-slice. -/
def B64Decode (b64 : List Nat) (reuse : Bool) : Option (List Nat) :=
  if reuse then
    (decodeInPlace b64 0 0).map (fun p => p.1.take p.2)
  else
    b64DecodePure b64

/-- `sign(digest, headerPayload)` from `verifier.go`: feed the
header+payload to the digest and base64url-encode the resulting MAC. -/
def sign (digest : List Nat → List Nat) (headerPayload : List Nat) : List Nat :=
  b64Encode (digest headerPayload)

/-- `verify(v, headerPayload, jwtSignature)` from `verifier.go`
(symmetric case): recompute the signature and compare with
`bytes.Equal`. -/
def verify (signFn : List Nat → List Nat) (headerPayload jwtSignature : List Nat) : Bool :=
  bytesEqual (signFn headerPayload) jwtSignature

/-- The `Base` struct: the `reuse` flag shared by all verifiers. -/
structure Base where
  reuse : Bool
  deriving DecidableEq, Repr

/-- The `BytesKey` struct: raw key bytes plus the embedded `Base`. -/
structure BytesKey where
  key : List Nat
  base : Base
  deriving DecidableEq, Repr

structure HS256 where
  bytesKey : BytesKey
  deriving DecidableEq, Repr

structure HS384 where
  bytesKey : BytesKey
  deriving DecidableEq, Repr

structure HS512 where
  bytesKey : BytesKey
  deriving DecidableEq, Repr

/-- `HS256.Sign`: `sign(hmac.New(sha256.New, v.key), hp)`.  The HMAC-SHA256
keyed digest is the abstract parameter `hmacSha256` (key, message ↦ MAC). -/
def HS256.Sign (hmacSha256 : List Nat → List Nat → List Nat) (v : HS256)
    (hp : List Nat) : List Nat :=
  sign (hmacSha256 v.bytesKey.key) hp

def HS384.Sign (hmacSha384 : List Nat → List Nat → List Nat) (v : HS384)
    (hp : List Nat) : List Nat :=
  sign (hmacSha384 v.bytesKey.key) hp

def HS512.Sign (hmacSha512 : List Nat → List Nat → List Nat) (v : HS512)
    (hp : List Nat) : List Nat :=
  sign (hmacSha512 v.bytesKey.key) hp

/-- `HS256.Verify(hp, sig) = verify(v, hp, sig)`. -/
def HS256.Verify (hmacSha256 : List Nat → List Nat → List Nat) (v : HS256)
    (hp sig : List Nat) : Bool :=
  verify (HS256.Sign hmacSha256 v) hp sig

def HS384.Verify (hmacSha384 : List Nat → List Nat → List Nat) (v : HS384)
    (hp sig : List Nat) : Bool :=
  verify (HS384.Sign hmacSha384 v) hp sig

def HS512.Verify (hmacSha512 : List Nat → List Nat → List Nat) (v : HS512)
    (hp sig : List Nat) : Bool :=
  verify (HS512.Sign hmacSha512 v) hp sig

/-- Value of one hexadecimal digit, or `none` when the byte is not a hex
digit. -/
def hexVal (c : Nat) : Option Nat :=
  if 48 ≤ c ∧ c ≤ 57 then some (c - 48)        -- 0-9
  else if 97 ≤ c ∧ c ≤ 102 then some (c - 97 + 10)  -- a-f
  else if 65 ≤ c ∧ c ≤ 70 then some (c - 65 + 10)   -- A-F
  else none

/-- Hexadecimal decoding: two hex digits per byte, failure on an odd
length or a non-hex byte. -/
def hexDecode : List Nat → Option (List Nat)
  | [] => some []
  | [_] => none
  | c0 :: c1 :: rest => do
    let v0 ← hexVal c0
    let v1 ← hexVal c1
    let tail ← hexDecode rest
    pure ((v0 * 16 + v1) :: tail)

/-- Modelled from the spec: `gg.DecodeHexOrB64` lives in the `gg` package,
which is not under `src/` — only its caller `verifier.go` is.  Following
the spec's key-parser contract: try hex first, fall back to base64, fail
if neither yields the exact expected byte length. -/
def DecodeHexOrB64 (txt : List Nat) (expected : Nat) : Option (List Nat) :=
  match hexDecode txt with
  | some b => if b.length = expected then some b else tryB64 txt expected
  | none => tryB64 txt expected
where
  tryB64 (txt : List Nat) (expected : Nat) : Option (List Nat) :=
    match b64DecodePure txt with
    | some b => if b.length = expected then some b else none
    | none => none

/-- The error values of the `gwt` package.  `KeyParse` stands for the
error returned by `gg.DecodeHexOrB64`, `X509Parse` for an
`x509.ParsePKIXPublicKey` failure. -/
inductive GwtError
  | ThreeParts
  | JWTSignature
  | NoBase64JWT
  | ClaimsDecode (claimsBytes : List Nat)
  | Expired
  | ColumnInKey
  | HMACKey
  | ECDSAPubKey
  | KeyParse
  | X509Parse
  | UnsupportedAlgorithm
  | UnknownAlgorithm
  deriving DecidableEq, Repr

/-- Result of `x509.ParsePKIXPublicKey` as used by the constructors: an
ECDSA public key, an Ed25519 public key (with its raw bytes), or a key
of some other type (the failed type-assertion branch). -/
inductive ParsedKey
  | ecdsaKey (raw : List Nat)
  | ed25519Key (raw : List Nat)
  | otherKey
  deriving DecidableEq, Repr

/-- The `ECDSA` struct: parsed public key plus the embedded `Base`. -/
structure ECDSAVerifier where
  key : List Nat
  base : Base
  deriving DecidableEq, Repr

structure ES256 where
  ecdsa : ECDSAVerifier
  deriving DecidableEq, Repr

structure ES384 where
  ecdsa : ECDSAVerifier
  deriving DecidableEq, Repr

structure ES512 where
  ecdsa : ECDSAVerifier
  deriving DecidableEq, Repr

structure EdDSA where
  bytesKey : BytesKey
  deriving DecidableEq, Repr

/-- `NewHS256`: decode the key text expecting exactly 32 bytes. -/
def NewHS256 (keyTxt : List Nat) (reuse : Bool) : Except GwtError HS256 :=
  match DecodeHexOrB64 keyTxt 32 with
  | none => .error .KeyParse
  | some key => .ok ⟨⟨key, ⟨reuse⟩⟩⟩

/-- `NewHS384`: decode the key text expecting exactly 48 bytes. -/
def NewHS384 (keyTxt : List Nat) (reuse : Bool) : Except GwtError HS384 :=
  match DecodeHexOrB64 keyTxt 48 with
  | none => .error .KeyParse
  | some key => .ok ⟨⟨key, ⟨reuse⟩⟩⟩

/-- `NewHS512`: decode the key text expecting exactly 64 bytes. -/
def NewHS512 (keyTxt : List Nat) (reuse : Bool) : Except GwtError HS512 :=
  match DecodeHexOrB64 keyTxt 64 with
  | none => .error .KeyParse
  | some key => .ok ⟨⟨key, ⟨reuse⟩⟩⟩

/-- `NewEdDSA`: decode 44 DER bytes, parse them as a PKIX public key
(abstract parameter `parsePKIX`), and require an Ed25519 key. -/
def NewEdDSA (parsePKIX : List Nat → Option ParsedKey) (keyTxt : List Nat)
    (reuse : Bool) : Except GwtError EdDSA :=
  match DecodeHexOrB64 keyTxt 44 with
  | none => .error .KeyParse
  | some der =>
    match parsePKIX der with
    | none => .error .X509Parse
    | some (.ed25519Key raw) => .ok ⟨⟨raw, ⟨reuse⟩⟩⟩
    | some _ => .error .ECDSAPubKey

/-- `NewES256`: decode 91 DER bytes, parse them, require an ECDSA key. -/
def NewES256 (parsePKIX : List Nat → Option ParsedKey) (keyTxt : List Nat)
    (reuse : Bool) : Except GwtError ES256 :=
  match DecodeHexOrB64 keyTxt 91 with
  | none => .error .KeyParse
  | some der =>
    match parsePKIX der with
    | none => .error .X509Parse
    | some (.ecdsaKey raw) => .ok ⟨⟨raw, ⟨reuse⟩⟩⟩
    | some _ => .error .ECDSAPubKey

/-- `NewES384`: decode 120 DER bytes, parse them, require an ECDSA key. -/
def NewES384 (parsePKIX : List Nat → Option ParsedKey) (keyTxt : List Nat)
    (reuse : Bool) : Except GwtError ES384 :=
  match DecodeHexOrB64 keyTxt 120 with
  | none => .error .KeyParse
  | some der =>
    match parsePKIX der with
    | none => .error .X509Parse
    | some (.ecdsaKey raw) => .ok ⟨⟨raw, ⟨reuse⟩⟩⟩
    | some _ => .error .ECDSAPubKey

/-- `NewES512`: decode 158 DER bytes, parse them, require an ECDSA key. -/
def NewES512 (parsePKIX : List Nat → Option ParsedKey) (keyTxt : List Nat)
    (reuse : Bool) : Except GwtError ES512 :=
  match DecodeHexOrB64 keyTxt 158 with
  | none => .error .KeyParse
  | some der =>
    match parsePKIX der with
    | none => .error .X509Parse
    | some (.ecdsaKey raw) => .ok ⟨⟨raw, ⟨reuse⟩⟩⟩
    | some _ => .error .ECDSAPubKey

/-- The concrete tokenizer produced by `NewHMAC`. -/
inductive HMACTokenizer
  | hs256 (v : HS256)
  | hs384 (v : HS384)
  | hs512 (v : HS512)
  deriving DecidableEq, Repr

/-- `NewHMAC`: reject a key text containing a colon, then try HS256,
HS384, HS512 in that order, the first successful parse winning. -/
def NewHMAC (keyTxt : List Nat) (reuse : Bool) : Except GwtError HMACTokenizer :=
  if keyTxt.contains 58 then .error .ColumnInKey
  else
    match NewHS256 keyTxt reuse with
    | .ok t => .ok (.hs256 t)
    | .error _ =>
      match NewHS384 keyTxt reuse with
      | .ok t => .ok (.hs384 t)
      | .error _ =>
        match NewHS512 keyTxt reuse with
        | .ok t => .ok (.hs512 t)
        | .error _ => .error .HMACKey

/-- Any concrete verifier `NewVerifier` can return. -/
inductive AnyVerifier
  | hmac (t : HMACTokenizer)
  | es256 (v : ES256)
  | es384 (v : ES384)
  | es512 (v : ES512)
  | eddsa (v : EdDSA)
  deriving DecidableEq, Repr

/-- Outcome of `NewVerifier`: the `panicked` constructor stands for the
`log.Panic` call in the `len(slice) == 0` branch. -/
inductive VerifierResult
  | panicked
  | ok (v : AnyVerifier)
  | err (e : GwtError)
  deriving DecidableEq, Repr

/-- `strings.SplitN(s, sep, 2)` on byte strings: split at the first
occurrence of `sep`, or return the whole string as a single element. -/
def splitN2 (s : List Nat) (sep : Nat) : List (List Nat) :=
  match s with
  | [] => [[]]
  | c :: rest =>
    if c = sep then [[], rest]
    else
      match splitN2 rest sep with
      | [] => [[c]]
      | a :: as => (c :: a) :: as

/-- `strings.ToUpper` restricted to ASCII bytes (the algorithm names the
factory compares against are all ASCII). -/
def toUpper (s : List Nat) : List Nat :=
  s.map (fun c => if 97 ≤ c ∧ c ≤ 122 then c - 32 else c)

/-- Byte string of an ASCII string literal. -/
def strBytes (s : String) : List Nat :=
  s.toList.map Char.toNat

def liftHMAC : Except GwtError HMACTokenizer → VerifierResult
  | .ok t => .ok (.hmac t)
  | .error e => .err e

def liftEx (f : α → AnyVerifier) : Except GwtError α → VerifierResult
  | .ok v => .ok (f v)
  | .error e => .err e

/-- `NewVerifier(algoKey, reuse)`: split the descriptor at the first
colon; with no colon the whole descriptor is an HMAC secret key;
otherwise dispatch on the upper-cased algorithm name. -/
def NewVerifier (parsePKIX : List Nat → Option ParsedKey) (algoKey : List Nat)
    (reuse : Bool) : VerifierResult :=
  match splitN2 algoKey 58 with
  | [] => .panicked
  | [_] => liftHMAC (NewHMAC algoKey reuse)
  | a :: keyTxt :: _ =>
    let algo := toUpper a
    if algo = strBytes "" ∨ algo = strBytes "HMAC" then
      liftHMAC (NewHMAC keyTxt reuse)
    else if algo = strBytes "HS256" then liftEx .hmac ((NewHS256 keyTxt reuse).map .hs256)
    else if algo = strBytes "HS384" then liftEx .hmac ((NewHS384 keyTxt reuse).map .hs384)
    else if algo = strBytes "HS512" then liftEx .hmac ((NewHS512 keyTxt reuse).map .hs512)
    else if algo = strBytes "RS256" ∨ algo = strBytes "RS384" ∨ algo = strBytes "RS512" then
      .err .UnsupportedAlgorithm
    else if algo = strBytes "PS256" ∨ algo = strBytes "PS384" ∨ algo = strBytes "PS512" then
      .err .UnsupportedAlgorithm
    else if algo = strBytes "ES256" then liftEx .es256 (NewES256 parsePKIX keyTxt reuse)
    else if algo = strBytes "ES384" then liftEx .es384 (NewES384 parsePKIX keyTxt reuse)
    else if algo = strBytes "ES512" then liftEx .es512 (NewES512 parsePKIX keyTxt reuse)
    else if algo = strBytes "EDDSA" then liftEx .eddsa (NewEdDSA parsePKIX keyTxt reuse)
    else .err .UnknownAlgorithm

/-- `bytes.IndexByte`: index of the first occurrence, `-1` if absent. -/
def indexByte : List Nat → Nat → Int
  | [], _ => -1
  | c :: rest, b =>
    if c = b then 0
    else
      match indexByte rest b with
      | -1 => -1
      | r => r + 1

/-- `bytes.LastIndexByte`: index of the last occurrence, `-1` if absent. -/
def lastIndexByte : List Nat → Nat → Int
  | [], _ => -1
  | c :: rest, b =>
    match lastIndexByte rest b with
    | -1 => if c = b then 0 else -1
    | r => r + 1

/-- `SplitThreeParts(jwt)`: positions of the first and last period, or
`ErrThreeParts` when the first is missing or not strictly before the
last. -/
def SplitThreeParts (jwt : List Nat) : Except GwtError (Int × Int) :=
  let p1 := indexByte jwt 46
  let p2 := lastIndexByte jwt 46
  if p1 < 0 ∨ p1 ≥ p2 then .error .ThreeParts
  else .ok (p1, p2)

/-- The `AccessClaims` struct: registered expiry plus the custom
`usr`/`grp`/`org` fields. -/
structure AccessClaims where
  expiresAt : Option Nat
  username : String
  groups : List String
  orgs : List String
  deriving DecidableEq, Repr

/-- Modelled from the spec: `claims.Valid()` resolves to the embedded
`jwt.RegisteredClaims` validation of the golang-jwt dependency, whose
source is not under `src/`.  Following the spec's claims-model contract:
validation fails with `Expired` when `now() >= claims.expiry`, and a
zero or absent expiry is never valid. -/
def AccessClaims.Valid (now : Nat) (c : AccessClaims) : Option GwtError :=
  match c.expiresAt with
  | none => some .Expired
  | some exp => if now < exp then none else some .Expired

/-- `AccessClaimsFromBase64`: base64url-decode the payload, JSON-decode
it (abstract parameter `jsonDecode`, mirroring `json.Unmarshal`), then
validate the claims. -/
def AccessClaimsFromBase64 (jsonDecode : List Nat → Option AccessClaims)
    (now : Nat) (payload : List Nat) (reuse : Bool) :
    Except GwtError AccessClaims :=
  match B64Decode payload reuse with
  | none => .error .NoBase64JWT
  | some decoded =>
    match jsonDecode decoded with
    | none => .error (.ClaimsDecode decoded)
    | some c =>
      match c.Valid now with
      | some e => .error e
      | none => .ok c

/-- The generic `claims[T Verifier]` pipeline: split the token, verify
the signature over the bytes before the last period against the bytes
after it, then decode and validate the payload between the first and
last periods. -/
def claimsPipeline (verifyFn : List Nat → List Nat → Bool)
    (jsonDecode : List Nat → Option AccessClaims) (now : Nat) (reuse : Bool)
    (accessToken : List Nat) : Except GwtError AccessClaims :=
  match SplitThreeParts accessToken with
  | .error e => .error e
  | .ok (p1, p2) =>
    let headerPayload := accessToken.take p2.toNat
    let signature := accessToken.drop (p2.toNat + 1)
    if verifyFn headerPayload signature then
      let payload := (accessToken.take p2.toNat).drop (p1.toNat + 1)
      AccessClaimsFromBase64 jsonDecode now payload reuse
    else
      .error .JWTSignature

/-- C1: For every HMAC verifier (HS256, HS384, HS512) constructed from a
valid key, and for every header+payload byte string `hp`,
`Verify(hp, Sign(hp))` returns `true`. -/
theorem hmac_verify_sign_roundtrip
    (h256 h384 h512 : List Nat → List Nat → List Nat)
    (v256 : HS256) (v384 : HS384) (v512 : HS512) (hp : List Nat) :
    HS256.Verify h256 v256 hp (HS256.Sign h256 v256 hp) = true ∧
    HS384.Verify h384 v384 hp (HS384.Sign h384 v384 hp) = true ∧
    HS512.Verify h512 v512 hp (HS512.Sign h512 v512 hp) = true := by
  refine ⟨?_, ?_, ?_⟩ <;>
    simp [HS256.Verify, HS384.Verify, HS512.Verify, verify, bytesEqual_refl]

/-- C2: Claims validation fails exactly when the expiry is missing, zero,
or not strictly in the future: validity of `AccessClaims` requires a
declared expiry `e` with `now < e`, and any claims value returned
successfully by `AccessClaimsFromBase64` satisfies that bound. -/
theorem claims_validation_expiry (now : Nat) :
    (∀ c : AccessClaims,
      AccessClaims.Valid now c = none ↔ ∃ e, c.expiresAt = some e ∧ now < e) ∧
    (∀ (jsonDecode : List Nat → Option AccessClaims) (payload : List Nat)
        (r : Bool) (c : AccessClaims),
      AccessClaimsFromBase64 jsonDecode now payload r = .ok c →
        ∃ e, c.expiresAt = some e ∧ now < e) := by
  have hvalid : ∀ c : AccessClaims,
      AccessClaims.Valid now c = none ↔ ∃ e, c.expiresAt = some e ∧ now < e := by
    intro c
    cases h : c.expiresAt with
    | none => simp [AccessClaims.Valid, h]
    | some e =>
      simp only [AccessClaims.Valid, h]
      by_cases hlt : now < e <;> simp [hlt]
  refine ⟨hvalid, ?_⟩
  intro jsonDecode payload r c hok
  cases hdec : B64Decode payload r with
  | none => simp [AccessClaimsFromBase64, hdec] at hok
  | some decoded =>
    cases hjson : jsonDecode decoded with
    | none => simp [AccessClaimsFromBase64, hdec, hjson] at hok
    | some c0 =>
      cases hv : AccessClaims.Valid now c0 with
      | some e => simp [AccessClaimsFromBase64, hdec, hjson, hv] at hok
      | none =>
        simp only [AccessClaimsFromBase64, hdec, hjson, hv,
          Except.ok.injEq] at hok
        subst hok
        exact (hvalid c0).mp hv

/-- Witness for C2 at a concrete claims value and payload. -/
theorem claims_validation_expiry_witness :
    (AccessClaims.Valid 5 ⟨some 10, "", [], []⟩ = none) ∧
    (∃ e, (⟨some 10, "", [], []⟩ : AccessClaims).expiresAt = some e ∧ 5 < e) := by
  constructor
  · exact ((claims_validation_expiry 5).1 ⟨some 10, "", [], []⟩).mpr
      ⟨10, rfl, by decide⟩
  · exact (claims_validation_expiry 5).2
      (fun _ => some ⟨some 10, "", [], []⟩) [] false ⟨some 10, "", [], []⟩ rfl

theorem splitN2_ne_nil (s : List Nat) (sep : Nat) : splitN2 s sep ≠ [] := by
  induction s with
  | nil => simp [splitN2]
  | cons c rest ih =>
    simp only [splitN2]
    by_cases h : c = sep
    · simp [h]
    · simp only [h, if_false]
      cases hs : splitN2 rest sep with
      | nil => simp
      | cons a as => simp

theorem liftHMAC_ne_panicked (x : Except GwtError HMACTokenizer) :
    liftHMAC x ≠ .panicked := by
  cases x <;> simp [liftHMAC]

theorem liftEx_ne_panicked (f : α → AnyVerifier) (x : Except GwtError α) :
    liftEx f x ≠ .panicked := by
  cases x <;> simp [liftEx]

/-- C10: `NewVerifier` returns normally for every descriptor string: the
panic branch is unreachable because the split always yields at least one
element, and the empty descriptor flows into `NewHMAC` and yields the
`ErrHMACKey` error value. -/
theorem NewVerifier_no_panic :
    (∀ (parsePKIX : List Nat → Option ParsedKey) (algoKey : List Nat) (r : Bool),
      NewVerifier parsePKIX algoKey r ≠ .panicked) ∧
    (∀ (parsePKIX : List Nat → Option ParsedKey) (r : Bool),
      NewVerifier parsePKIX [] r = .err .HMACKey) := by
  constructor
  · intro parsePKIX algoKey r
    unfold NewVerifier
    cases hs : splitN2 algoKey 58 with
    | nil => exact absurd hs (splitN2_ne_nil _ _)
    | cons a as =>
      cases as with
      | nil => exact liftHMAC_ne_panicked _
      | cons k rest =>
        simp only [ne_eq]
        repeat' split
        all_goals first
          | exact liftHMAC_ne_panicked _
          | exact liftEx_ne_panicked _ _
          | simp
  · intro parsePKIX r
    rfl

/-- Witness for C10 at a concrete descriptor. -/
theorem NewVerifier_no_panic_witness :
    NewVerifier (fun _ => none) (strBytes "abc") true ≠ .panicked :=
  NewVerifier_no_panic.1 (fun _ => none) (strBytes "abc") true

/-- The algorithm names `NewVerifier` recognizes in a `ALGO:key`
descriptor (the cases of its switch other than the default). -/
def knownAlgoNames : List (List Nat) :=
  [strBytes "", strBytes "HMAC",
   strBytes "HS256", strBytes "HS384", strBytes "HS512",
   strBytes "RS256", strBytes "RS384", strBytes "RS512",
   strBytes "PS256", strBytes "PS384", strBytes "PS512",
   strBytes "ES256", strBytes "ES384", strBytes "ES512",
   strBytes "EDDSA"]

/-- C6: On a descriptor with an RS256/RS384/RS512/PS256/PS384/PS512
algorithm part, `NewVerifier` returns no verifier and the
unsupported-algorithm error; on any other unrecognized algorithm part it
returns no verifier and the unknown-algorithm error. -/
theorem NewVerifier_unsupported_unknown
    (parsePKIX : List Nat → Option ParsedKey) (algoKey a keyTxt : List Nat)
    (rest : List (List Nat)) (r : Bool)
    (hsplit : splitN2 algoKey 58 = a :: keyTxt :: rest) :
    (toUpper a ∈ [strBytes "RS256", strBytes "RS384", strBytes "RS512",
        strBytes "PS256", strBytes "PS384", strBytes "PS512"] →
      NewVerifier parsePKIX algoKey r = .err .UnsupportedAlgorithm) ∧
    (toUpper a ∉ knownAlgoNames →
      NewVerifier parsePKIX algoKey r = .err .UnknownAlgorithm) := by
  constructor
  · intro hmem
    simp only [List.mem_cons, List.not_mem_nil, or_false] at hmem
    simp only [NewVerifier, hsplit]
    rcases hmem with h|h|h|h|h|h <;> rw [h] <;> simp +decide
  · intro hmem
    simp only [knownAlgoNames, List.mem_cons, List.not_mem_nil, or_false,
      not_or] at hmem
    obtain ⟨h1, h2, h3, h4, h5, h6, h7, h8, h9, h10, h11, h12, h13, h14, h15⟩ := hmem
    simp only [NewVerifier, hsplit]
    simp [h1, h2, h3, h4, h5, h6, h7, h8, h9, h10, h11, h12, h13, h14, h15]

/-- Witness for C6 at two concrete descriptors. -/
theorem NewVerifier_unsupported_unknown_witness :
    NewVerifier (fun _ => none) (strBytes "RS256:k") true
      = .err .UnsupportedAlgorithm ∧
    NewVerifier (fun _ => none) (strBytes "FOO:k") true
      = .err .UnknownAlgorithm := by
  constructor
  · exact (NewVerifier_unsupported_unknown (fun _ => none) (strBytes "RS256:k")
      (strBytes "RS256") (strBytes "k") [] true (by decide)).1 (by decide)
  · exact (NewVerifier_unsupported_unknown (fun _ => none) (strBytes "FOO:k")
      (strBytes "FOO") (strBytes "k") [] true (by decide)).2 (by decide)

/-- C5: With no explicit algorithm (so a key text without a colon),
`NewHMAC` tries HS256, then HS384, then HS512 key-length parses in that
order, the first success winning; with all three failing it returns
`ErrHMACKey`. -/
theorem NewHMAC_resolution (keyTxt : List Nat) (r : Bool)
    (hnc : keyTxt.contains 58 = false) :
    (∀ k, DecodeHexOrB64 keyTxt 32 = some k →
      NewHMAC keyTxt r = .ok (.hs256 ⟨⟨k, ⟨r⟩⟩⟩)) ∧
    (DecodeHexOrB64 keyTxt 32 = none →
      ∀ k, DecodeHexOrB64 keyTxt 48 = some k →
        NewHMAC keyTxt r = .ok (.hs384 ⟨⟨k, ⟨r⟩⟩⟩)) ∧
    (DecodeHexOrB64 keyTxt 32 = none → DecodeHexOrB64 keyTxt 48 = none →
      ∀ k, DecodeHexOrB64 keyTxt 64 = some k →
        NewHMAC keyTxt r = .ok (.hs512 ⟨⟨k, ⟨r⟩⟩⟩)) ∧
    (DecodeHexOrB64 keyTxt 32 = none → DecodeHexOrB64 keyTxt 48 = none →
      DecodeHexOrB64 keyTxt 64 = none →
      NewHMAC keyTxt r = .error .HMACKey) := by
  have hmem : 58 ∉ keyTxt := by simpa using hnc
  refine ⟨?_, ?_, ?_, ?_⟩
  · intro k h32
    simp [NewHMAC, hnc, hmem, NewHS256, h32]
  · intro h32 k h48
    simp [NewHMAC, hnc, hmem, NewHS256, h32, NewHS384, h48]
  · intro h32 h48 k h64
    simp [NewHMAC, hnc, hmem, NewHS256, h32, NewHS384, h48, NewHS512, h64]
  · intro h32 h48 h64
    simp [NewHMAC, hnc, hmem, NewHS256, h32, NewHS384, h48, NewHS512, h64]

/-- Witness for C5: a 64-hex-digit key text resolves to HS256 with the
32 decoded key bytes. -/
theorem NewHMAC_resolution_witness :
    NewHMAC (strBytes "eb037d66a3d07cc90c393a9bb04c172ceb037d66a3d07cc90c393a9bb04c172c")
        true
      = .ok (.hs256 ⟨⟨[0xeb, 0x03, 0x7d, 0x66, 0xa3, 0xd0, 0x7c, 0xc9,
          0x0c, 0x39, 0x3a, 0x9b, 0xb0, 0x4c, 0x17, 0x2c,
          0xeb, 0x03, 0x7d, 0x66, 0xa3, 0xd0, 0x7c, 0xc9,
          0x0c, 0x39, 0x3a, 0x9b, 0xb0, 0x4c, 0x17, 0x2c], ⟨true⟩⟩⟩) :=
  (NewHMAC_resolution _ true (by decide)).1 _ (by decide)

/-- The key text has a decoding (hex or base64url) of exactly `n`
bytes. -/
def decodesToLen (txt : List Nat) (n : Nat) : Prop :=
  (∃ b, hexDecode txt = some b ∧ b.length = n) ∨
  (∃ b, b64DecodePure txt = some b ∧ b.length = n)

theorem DecodeHexOrB64_length {txt : List Nat} {n : Nat} {b : List Nat}
    (h : DecodeHexOrB64 txt n = some b) : b.length = n := by
  unfold DecodeHexOrB64 DecodeHexOrB64.tryB64 at h
  repeat' split at h
  all_goals first
    | (injection h with h; subst h; assumption)
    | exact absurd h (by simp)

theorem DecodeHexOrB64_isSome_iff (txt : List Nat) (n : Nat) :
    (DecodeHexOrB64 txt n).isSome ↔ decodesToLen txt n := by
  unfold DecodeHexOrB64 DecodeHexOrB64.tryB64 decodesToLen
  repeat' split
  all_goals simp_all

/-- C4: Every constructor rejects a key text none of whose decodings has
exactly the algorithm's required byte length (32/48/64 for HS256/384/512,
91/120/158 DER bytes for ES256/384/512, 44 DER bytes for EdDSA), and a
successfully constructed HMAC verifier always holds a key of exactly the
required length — the mismatch is detected at construction. -/
theorem key_length_invariant (txt : List Nat) (r : Bool)
    (parsePKIX : List Nat → Option ParsedKey) :
    ((NewHS256 txt r).isOk ↔ decodesToLen txt 32) ∧
    ((NewHS384 txt r).isOk ↔ decodesToLen txt 48) ∧
    ((NewHS512 txt r).isOk ↔ decodesToLen txt 64) ∧
    (∀ v, NewHS256 txt r = .ok v → v.bytesKey.key.length = 32) ∧
    (∀ v, NewHS384 txt r = .ok v → v.bytesKey.key.length = 48) ∧
    (∀ v, NewHS512 txt r = .ok v → v.bytesKey.key.length = 64) ∧
    (¬ decodesToLen txt 91 → NewES256 parsePKIX txt r = .error .KeyParse) ∧
    (¬ decodesToLen txt 120 → NewES384 parsePKIX txt r = .error .KeyParse) ∧
    (¬ decodesToLen txt 158 → NewES512 parsePKIX txt r = .error .KeyParse) ∧
    (¬ decodesToLen txt 44 → NewEdDSA parsePKIX txt r = .error .KeyParse) := by
  have hs : ∀ n, ¬ decodesToLen txt n → DecodeHexOrB64 txt n = none := by
    intro n hn
    cases h : DecodeHexOrB64 txt n with
    | none => rfl
    | some b =>
      exact absurd ((DecodeHexOrB64_isSome_iff txt n).mp (by simp [h])) hn
  refine ⟨?_, ?_, ?_, ?_, ?_, ?_, ?_, ?_, ?_, ?_⟩
  · rw [← DecodeHexOrB64_isSome_iff]
    unfold NewHS256
    cases h : DecodeHexOrB64 txt 32 <;> simp [h, Except.isOk, Except.toBool]
  · rw [← DecodeHexOrB64_isSome_iff]
    unfold NewHS384
    cases h : DecodeHexOrB64 txt 48 <;> simp [h, Except.isOk, Except.toBool]
  · rw [← DecodeHexOrB64_isSome_iff]
    unfold NewHS512
    cases h : DecodeHexOrB64 txt 64 <;> simp [h, Except.isOk, Except.toBool]
  · intro v hv
    unfold NewHS256 at hv
    cases h : DecodeHexOrB64 txt 32 with
    | none => rw [h] at hv; exact absurd hv (by simp)
    | some b =>
      rw [h] at hv; injection hv with hv; subst hv
      exact DecodeHexOrB64_length h
  · intro v hv
    unfold NewHS384 at hv
    cases h : DecodeHexOrB64 txt 48 with
    | none => rw [h] at hv; exact absurd hv (by simp)
    | some b =>
      rw [h] at hv; injection hv with hv; subst hv
      exact DecodeHexOrB64_length h
  · intro v hv
    unfold NewHS512 at hv
    cases h : DecodeHexOrB64 txt 64 with
    | none => rw [h] at hv; exact absurd hv (by simp)
    | some b =>
      rw [h] at hv; injection hv with hv; subst hv
      exact DecodeHexOrB64_length h
  · intro hn; unfold NewES256; rw [hs 91 hn]
  · intro hn; unfold NewES384; rw [hs 120 hn]
  · intro hn; unfold NewES512; rw [hs 158 hn]
  · intro hn; unfold NewEdDSA; rw [hs 44 hn]

/-- Witness for C4: a 64-hex-digit key constructs an HS256 verifier, and
a key text decodable by neither codec is rejected by `NewES256`. -/
theorem key_length_invariant_witness :
    (NewHS256 (strBytes "eb037d66a3d07cc90c393a9bb04c172ceb037d66a3d07cc90c393a9bb04c172c")
      true).isOk ∧
    NewES256 (fun _ => none) (strBytes "!!") true = .error .KeyParse := by
  constructor
  · exact (key_length_invariant _ true (fun _ => none)).1.mpr
      (Or.inl ⟨_, rfl, by decide⟩)
  · refine (key_length_invariant _ true (fun _ => none)).2.2.2.2.2.2.1 ?_
    rintro (⟨b, hb, _⟩ | ⟨b, hb, _⟩)
    · rw [show hexDecode (strBytes "!!") = none from by decide] at hb
      exact absurd hb (by simp)
    · rw [show b64DecodePure (strBytes "!!") = none from by decide] at hb
      exact absurd hb (by simp)

theorem indexByte_spec (l : List Nat) (b : Nat) :
    (indexByte l b = -1 ∧ b ∉ l) ∨
    (∃ i : Nat, indexByte l b = (i : Int) ∧ i < l.length ∧ l.getD i 0 = b ∧
      ∀ j, j < i → l.getD j 0 ≠ b) := by
  induction l with
  | nil => exact Or.inl ⟨rfl, by simp⟩
  | cons c rest ih =>
    by_cases hc : c = b
    · refine Or.inr ⟨0, ?_, by simp, by simpa using hc, by omega⟩
      simp [indexByte, hc]
    · rcases ih with ⟨hneg, hmem⟩ | ⟨i, hi, hlen, hget, hbef⟩
      · refine Or.inl ⟨?_, ?_⟩
        · simp [indexByte, hc, hneg]
        · simp [hc, hmem]
          intro h
          exact hc h.symm
      · refine Or.inr ⟨i + 1, ?_, by simpa using hlen, by simpa using hget, ?_⟩
        · simp only [indexByte, hc, if_false]
          rw [hi]
          rfl
        · intro j hj
          cases j with
          | zero => simpa using hc
          | succ j0 =>
            intro hbad
            exact hbef j0 (by omega) (by simpa using hbad)

theorem lastIndexByte_spec (l : List Nat) (b : Nat) :
    (lastIndexByte l b = -1 ∧ b ∉ l) ∨
    (∃ i : Nat, lastIndexByte l b = (i : Int) ∧ i < l.length ∧ l.getD i 0 = b ∧
      ∀ j, i < j → j < l.length → l.getD j 0 ≠ b) := by
  induction l with
  | nil => exact Or.inl ⟨rfl, by simp⟩
  | cons c rest ih =>
    rcases ih with ⟨hneg, hmem⟩ | ⟨i, hi, hlen, hget, haft⟩
    · by_cases hc : c = b
      · refine Or.inr ⟨0, ?_, by simp, by simpa using hc, ?_⟩
        · simp only [lastIndexByte]
          rw [hneg]
          simp [hc]
        · intro j hj hjlen hbad
          cases j with
          | zero => omega
          | succ j0 =>
            refine hmem ?_
            have : rest.getD j0 0 = b := by simpa using hbad
            have hj0 : j0 < rest.length := by simpa using hjlen
            rw [← this, List.getD_eq_getElem rest 0 hj0]
            exact List.getElem_mem hj0
      · refine Or.inl ⟨?_, ?_⟩
        · simp only [lastIndexByte]
          rw [hneg]
          simp [hc]
        · simp only [List.mem_cons, not_or]
          exact ⟨fun h => hc h.symm, hmem⟩
    · refine Or.inr ⟨i + 1, ?_, by simpa using hlen, by simpa using hget, ?_⟩
      · simp only [lastIndexByte]
        rw [hi]
        rfl
      · intro j hj hjlen
        cases j with
        | zero => omega
        | succ j0 =>
          intro hbad
          exact haft j0 (by omega) (by simpa using hjlen) (by simpa using hbad)

theorem indexByte_neg_iff (l : List Nat) (b : Nat) :
    indexByte l b = -1 ↔ b ∉ l := by
  rcases indexByte_spec l b with ⟨hneg, hmem⟩ | ⟨i, hi, hlen, hget, _⟩
  · simp [hneg, hmem]
  · rw [hi]
    constructor
    · intro h; exact absurd h (by omega)
    · intro h
      exfalso
      refine h ?_
      rw [← hget, List.getD_eq_getElem l 0 hlen]
      exact List.getElem_mem hlen

theorem lastIndexByte_neg_iff (l : List Nat) (b : Nat) :
    lastIndexByte l b = -1 ↔ b ∉ l := by
  rcases lastIndexByte_spec l b with ⟨hneg, hmem⟩ | ⟨i, hi, hlen, hget, _⟩
  · simp [hneg, hmem]
  · rw [hi]
    constructor
    · intro h; exact absurd h (by omega)
    · intro h
      exfalso
      refine h ?_
      rw [← hget, List.getD_eq_getElem l 0 hlen]
      exact List.getElem_mem hlen

theorem two_le_count_iff (l : List Nat) (b : Nat) :
    2 ≤ l.count b ↔ 0 ≤ indexByte l b ∧ indexByte l b < lastIndexByte l b := by
  induction l with
  | nil => simp [indexByte, lastIndexByte]
  | cons c rest ih =>
    by_cases hc : c = b
    · have hidx : indexByte (c :: rest) b = 0 := by simp [indexByte, hc]
      have hcount : (c :: rest).count b = rest.count b + 1 := by
        simp [List.count_cons, hc]
      rcases lastIndexByte_spec rest b with ⟨hneg, hmem⟩ | ⟨j, hj, hjlen, hjget, _⟩
      · have hlast : lastIndexByte (c :: rest) b = 0 := by
          simp only [lastIndexByte]
          rw [hneg]
          simp [hc]
        have hc0 : rest.count b = 0 := List.count_eq_zero.mpr hmem
        rw [hidx, hlast, hcount, hc0]
        simp
      · have hlast : lastIndexByte (c :: rest) b = ((j + 1 : Nat) : Int) := by
          simp only [lastIndexByte]
          rw [hj]
          rfl
        have hmem2 : b ∈ rest := by
          rw [← hjget, List.getD_eq_getElem rest 0 hjlen]
          exact List.getElem_mem hjlen
        have hc1 : 1 ≤ rest.count b := List.count_pos_iff.mpr hmem2
        rw [hidx, hlast, hcount]
        constructor
        · intro _; constructor <;> [omega; (push_cast; omega)]
        · intro _; omega
    · have hcount : (c :: rest).count b = rest.count b := by
        simp [List.count_cons, hc]
      rcases indexByte_spec rest b with ⟨hneg, hmem⟩ | ⟨i, hi, hlen, hget, _⟩
      · have hidx : indexByte (c :: rest) b = -1 := by
          simp only [indexByte, hc, if_false]
          rw [hneg]
          rfl
        have hc0 : rest.count b = 0 := List.count_eq_zero.mpr hmem
        rw [hidx, hcount, hc0]
        simp
      · have hmem2 : b ∈ rest := by
          rw [← hget, List.getD_eq_getElem rest 0 hlen]
          exact List.getElem_mem hlen
        rcases lastIndexByte_spec rest b with ⟨hneg2, hmem3⟩ | ⟨j, hj, hjlen, hjget, _⟩
        · exact absurd hmem2 hmem3
        · have e1 : indexByte (c :: rest) b = ((i + 1 : Nat) : Int) := by
            simp only [indexByte, hc, if_false]
            rw [hi]
            rfl
          have e2 : lastIndexByte (c :: rest) b = ((j + 1 : Nat) : Int) := by
            simp only [lastIndexByte]
            rw [hj]
            rfl
          rw [e1, e2, hcount]
          rw [hi, hj] at ih
          constructor
          · intro h2
            have := ih.mp h2
            push_cast at this ⊢
            omega
          · intro h
            apply ih.mpr
            push_cast at h ⊢
            omega

/-- C3: `SplitThreeParts` fails with `ErrThreeParts` exactly when the
token holds fewer than two period bytes; on success it returns the index
of the first and of the last period; and with fewer than two periods the
claims pipeline returns that error for every verify function, before any
signature computation. -/
theorem splitThreeParts_spec (tok : List Nat) :
    (SplitThreeParts tok = .error .ThreeParts ↔ tok.count 46 < 2) ∧
    (∀ p1 p2 : Int, SplitThreeParts tok = .ok (p1, p2) →
      0 ≤ p1 ∧ p1 < p2 ∧ p2.toNat < tok.length ∧
      tok.getD p1.toNat 0 = 46 ∧ tok.getD p2.toNat 0 = 46 ∧
      (∀ j, j < p1.toNat → tok.getD j 0 ≠ 46) ∧
      (∀ j, p2.toNat < j → j < tok.length → tok.getD j 0 ≠ 46)) ∧
    (tok.count 46 < 2 →
      ∀ (verifyFn : List Nat → List Nat → Bool)
        (jsonDecode : List Nat → Option AccessClaims) (now : Nat) (r : Bool),
        claimsPipeline verifyFn jsonDecode now r tok = .error .ThreeParts) := by
  have hcnt := two_le_count_iff tok 46
  have herr : SplitThreeParts tok = .error .ThreeParts ↔ tok.count 46 < 2 := by
    unfold SplitThreeParts
    by_cases h : (indexByte tok 46 < 0 ∨ indexByte tok 46 ≥ lastIndexByte tok 46)
    · rw [if_pos h]
      simp only [true_iff]
      by_contra h2
      have := hcnt.mp (by omega)
      omega
    · rw [if_neg h]
      simp only [reduceCtorEq, false_iff, not_lt]
      push_neg at h
      exact hcnt.mpr ⟨by omega, by omega⟩
  refine ⟨herr, ?_, ?_⟩
  · intro p1 p2 hok
    unfold SplitThreeParts at hok
    by_cases h : (indexByte tok 46 < 0 ∨ indexByte tok 46 ≥ lastIndexByte tok 46)
    · rw [if_pos h] at hok
      exact absurd hok (by simp)
    · rw [if_neg h] at hok
      push_neg at h
      obtain ⟨hge, hlt⟩ := h
      simp only [Except.ok.injEq, Prod.mk.injEq] at hok
      obtain ⟨h1, h2⟩ := hok
      subst h1
      subst h2
      rcases indexByte_spec tok 46 with ⟨hneg, _⟩ | ⟨i, hi, hilen, higet, hibef⟩
      · rw [hneg] at hge; omega
      · rcases lastIndexByte_spec tok 46 with ⟨hneg2, _⟩ | ⟨j, hj, hjlen, hjget, hjaft⟩
        · rw [hneg2] at hlt; rw [hi] at hge; omega
        · rw [hi, hj]
          have htn1 : ((i : Int)).toNat = i := Int.toNat_ofNat i
          have htn2 : ((j : Int)).toNat = j := Int.toNat_ofNat j
          rw [htn1, htn2]
          refine ⟨by omega, ?_, hjlen, higet, hjget, hibef, hjaft⟩
          rw [hi, hj] at hlt
          exact hlt
  · intro hcount verifyFn jsonDecode now r
    unfold claimsPipeline
    rw [herr.mpr hcount]

/-- Witness for C3 at concrete tokens with one and with two periods. -/
theorem splitThreeParts_spec_witness :
    (SplitThreeParts (strBytes "a.b") = .error .ThreeParts) ∧
    (0 ≤ (1 : Int) ∧ (1 : Int) < 3 ∧ ((3 : Int)).toNat < (strBytes "a.b.c").length ∧
      (strBytes "a.b.c").getD ((1 : Int)).toNat 0 = 46 ∧
      (strBytes "a.b.c").getD ((3 : Int)).toNat 0 = 46 ∧
      (∀ j, j < ((1 : Int)).toNat → (strBytes "a.b.c").getD j 0 ≠ 46) ∧
      (∀ j, ((3 : Int)).toNat < j → j < (strBytes "a.b.c").length →
        (strBytes "a.b.c").getD j 0 ≠ 46)) ∧
    (claimsPipeline (fun _ _ => true) (fun _ => none) 0 false (strBytes "nodots")
      = .error .ThreeParts) := by
  refine ⟨?_, ?_, ?_⟩
  · exact (splitThreeParts_spec (strBytes "a.b")).1.mpr (by decide)
  · exact (splitThreeParts_spec (strBytes "a.b.c")).2.1 1 3 rfl
  · exact (splitThreeParts_spec (strBytes "nodots")).2.2 (by decide)
      (fun _ _ => true) (fun _ => none) 0 false

/-- C7: For every token accepted by `SplitThreeParts`, the claims
pipeline verifies the signature over exactly the token bytes before the
last period (whose position is `p2`) against the bytes after it, and on
a failed verification returns `ErrJWTSignature` for every decode
function — no payload decoding is attempted. -/
theorem claims_signature_over_last_dot (tok : List Nat) (p1 p2 : Int)
    (hsplit : SplitThreeParts tok = .ok (p1, p2)) :
    (tok.getD p2.toNat 0 = 46 ∧
      ∀ j, p2.toNat < j → j < tok.length → tok.getD j 0 ≠ 46) ∧
    (∀ (verifyFn : List Nat → List Nat → Bool)
        (jsonDecode : List Nat → Option AccessClaims) (now : Nat) (r : Bool),
      (verifyFn (tok.take p2.toNat) (tok.drop (p2.toNat + 1)) = false →
        claimsPipeline verifyFn jsonDecode now r tok = .error .JWTSignature) ∧
      claimsPipeline verifyFn jsonDecode now r tok =
        if verifyFn (tok.take p2.toNat) (tok.drop (p2.toNat + 1)) then
          AccessClaimsFromBase64 jsonDecode now
            ((tok.take p2.toNat).drop (p1.toNat + 1)) r
        else .error .JWTSignature) := by
  constructor
  · have h := (splitThreeParts_spec tok).2.1 p1 p2 hsplit
    exact ⟨h.2.2.2.2.1, h.2.2.2.2.2.2⟩
  · intro verifyFn jsonDecode now r
    have heq : claimsPipeline verifyFn jsonDecode now r tok =
        if verifyFn (tok.take p2.toNat) (tok.drop (p2.toNat + 1)) then
          AccessClaimsFromBase64 jsonDecode now
            ((tok.take p2.toNat).drop (p1.toNat + 1)) r
        else .error .JWTSignature := by
      unfold claimsPipeline
      rw [hsplit]
    refine ⟨?_, heq⟩
    intro hfail
    rw [heq, hfail]
    simp

/-- Witness for C7 at a concrete token and an always-false verifier. -/
theorem claims_signature_over_last_dot_witness :
    claimsPipeline (fun _ _ => false) (fun _ => none) 0 false (strBytes "a.b.c")
      = .error .JWTSignature :=
  ((claims_signature_over_last_dot (strBytes "a.b.c") 1 3 rfl).2
    (fun _ _ => false) (fun _ => none) 0 false).1 rfl

theorem decodeInPlace_zero (buf : List Nat) (s d : Nat) (h : buf.length - s = 0) :
    decodeInPlace buf s d = some (buf, d) := by
  rw [decodeInPlace]
  split
  all_goals first | rfl | omega

theorem decodeInPlace_one (buf : List Nat) (s d : Nat) (h : buf.length - s = 1) :
    decodeInPlace buf s d = none := by
  rw [decodeInPlace]
  split
  all_goals first | rfl | omega

theorem decodeInPlace_two (buf : List Nat) (s d : Nat) (h : buf.length - s = 2) :
    decodeInPlace buf s d =
      (b64Val (buf.getD s 0)).bind fun v0 =>
        (b64Val (buf.getD (s + 1) 0)).bind fun v1 =>
          some (buf.set d (v0 * 4 + v1 / 16), d + 1) := by
  rw [decodeInPlace]
  split
  all_goals first | rfl | omega

theorem decodeInPlace_three (buf : List Nat) (s d : Nat) (h : buf.length - s = 3) :
    decodeInPlace buf s d =
      (b64Val (buf.getD s 0)).bind fun v0 =>
        (b64Val (buf.getD (s + 1) 0)).bind fun v1 =>
          (b64Val (buf.getD (s + 2) 0)).bind fun v2 =>
            some ((buf.set d (v0 * 4 + v1 / 16)).set (d + 1) (v1 % 16 * 16 + v2 / 4),
              d + 2) := by
  rw [decodeInPlace]
  split
  all_goals first | rfl | omega

theorem decodeInPlace_four (buf : List Nat) (s d m : Nat)
    (h : buf.length - s = m + 4) :
    decodeInPlace buf s d =
      (b64Val (buf.getD s 0)).bind fun v0 =>
        (b64Val (buf.getD (s + 1) 0)).bind fun v1 =>
          (b64Val (buf.getD (s + 2) 0)).bind fun v2 =>
            (b64Val (buf.getD (s + 3) 0)).bind fun v3 =>
              decodeInPlace (((buf.set d (v0 * 4 + v1 / 16)).set (d + 1)
                  (v1 % 16 * 16 + v2 / 4)).set (d + 2) (v2 % 4 * 64 + v3))
                (s + 4) (d + 3) := by
  rw [decodeInPlace]
  split
  all_goals first | rfl | omega

theorem drop_set_lt (buf : List Nat) (i a j : Nat) (h : i < j) :
    (buf.set i a).drop j = buf.drop j := by
  rw [List.drop_set]
  simp [h]

theorem take_set1 (buf : List Nat) (d w0 : Nat) (h : d < buf.length) :
    (buf.set d w0).take (d + 1) = buf.take d ++ [w0] := by
  apply List.ext_getElem?
  intro n
  rcases lt_trichotomy n d with hlt | heq | hgt
  · rw [List.getElem?_take, if_pos (by omega), List.getElem?_set,
      if_neg (by omega), List.getElem?_append_left
        (by simp [List.length_take]; omega),
      List.getElem?_take, if_pos hlt]
  · subst heq
    rw [List.getElem?_take, if_pos (by omega), List.getElem?_set,
      if_pos rfl, if_pos h, List.getElem?_append_right
        (by simp [List.length_take])]
    simp [List.length_take, Nat.min_eq_left (le_of_lt h)]
  · rw [List.getElem?_take, if_neg (by omega), List.getElem?_append]
    rw [if_neg (by simp [List.length_take]; omega)]
    have : 1 ≤ n - (buf.take d).length := by simp [List.length_take]; omega
    rw [List.getElem?_eq_none (by simpa using this)]

theorem take_set2 (buf : List Nat) (d w0 w1 : Nat) (h : d + 1 < buf.length) :
    ((buf.set d w0).set (d + 1) w1).take (d + 2) = buf.take d ++ [w0, w1] := by
  have h1 : d + 1 < (buf.set d w0).length := by simpa using h
  have := take_set1 (buf.set d w0) (d + 1) w1 h1
  rw [show d + 1 + 1 = d + 2 from rfl] at this
  rw [this, take_set1 buf d w0 (by omega)]
  simp

theorem take_set3 (buf : List Nat) (d w0 w1 w2 : Nat) (h : d + 2 < buf.length) :
    (((buf.set d w0).set (d + 1) w1).set (d + 2) w2).take (d + 3)
      = buf.take d ++ [w0, w1, w2] := by
  have h1 : d + 2 < ((buf.set d w0).set (d + 1) w1).length := by simpa using h
  have := take_set1 ((buf.set d w0).set (d + 1) w1) (d + 2) w2 h1
  rw [show d + 2 + 1 = d + 3 from rfl] at this
  rw [this, take_set2 buf d w0 w1 (by omega)]
  simp

theorem getD_of_drop (buf : List Nat) (s k : Nat) (l : List Nat)
    (hdrop : buf.drop s = l) : buf.getD (s + k) 0 = l.getD k 0 := by
  rw [List.getD_eq_getElem?_getD, List.getD_eq_getElem?_getD, ← hdrop,
    List.getElem?_drop]

theorem cons4_of_length (l : List Nat) (m : Nat) (h : l.length = m + 4) :
    ∃ c0 c1 c2 c3 rest, l = c0 :: c1 :: c2 :: c3 :: rest ∧ rest.length = m := by
  rcases l with _ | ⟨c0, _ | ⟨c1, _ | ⟨c2, _ | ⟨c3, rest⟩⟩⟩⟩
  · simp at h
  · simp at h
  · simp at h
  · simp at h
  · exact ⟨c0, c1, c2, c3, rest, rfl, by simp at h; omega⟩

theorem decodeInPlace_none (n : Nat) : ∀ (buf : List Nat) (s d : Nat),
    buf.length - s = n → d ≤ s → b64DecodePure (buf.drop s) = none →
    decodeInPlace buf s d = none := by
  induction n using Nat.strong_induction_on with
  | _ n ih =>
    intro buf s d hn hds hpure
    match n, hn with
    | 0, hn =>
      have hdrop : buf.drop s = [] :=
        List.eq_nil_of_length_eq_zero (by simp [List.length_drop]; omega)
      rw [hdrop] at hpure
      simp [b64DecodePure] at hpure
    | 1, hn => exact decodeInPlace_one buf s d hn
    | 2, hn =>
      have hlen2 : (buf.drop s).length = 2 := by simp [List.length_drop]; omega
      obtain ⟨c0, c1, hdrop⟩ := List.length_eq_two.mp hlen2
      have g0 : buf.getD (s + 0) 0 = c0 := by
        rw [getD_of_drop buf s 0 _ hdrop]; rfl
      have g1 : buf.getD (s + 1) 0 = c1 := by
        rw [getD_of_drop buf s 1 _ hdrop]; rfl
      rw [show s + 0 = s from rfl] at g0
      rw [decodeInPlace_two buf s d hn, g0, g1]
      rw [hdrop] at hpure
      cases hv0 : b64Val c0 with
      | none => simp [hv0]
      | some v0 =>
        cases hv1 : b64Val c1 with
        | none => simp [hv0, hv1]
        | some v1 => simp [b64DecodePure, hv0, hv1] at hpure
    | 3, hn =>
      have hlen3 : (buf.drop s).length = 3 := by simp [List.length_drop]; omega
      obtain ⟨c0, c1, c2, hdrop⟩ := List.length_eq_three.mp hlen3
      have g0 : buf.getD (s + 0) 0 = c0 := by
        rw [getD_of_drop buf s 0 _ hdrop]; rfl
      have g1 : buf.getD (s + 1) 0 = c1 := by
        rw [getD_of_drop buf s 1 _ hdrop]; rfl
      have g2 : buf.getD (s + 2) 0 = c2 := by
        rw [getD_of_drop buf s 2 _ hdrop]; rfl
      rw [show s + 0 = s from rfl] at g0
      rw [decodeInPlace_three buf s d hn, g0, g1, g2]
      rw [hdrop] at hpure
      cases hv0 : b64Val c0 with
      | none => simp [hv0]
      | some v0 =>
        cases hv1 : b64Val c1 with
        | none => simp [hv0, hv1]
        | some v1 =>
          cases hv2 : b64Val c2 with
          | none => simp [hv0, hv1, hv2]
          | some v2 => simp [b64DecodePure, hv0, hv1, hv2] at hpure
    | (m + 4), hn =>
      have hlen4 : (buf.drop s).length = m + 4 := by
        simp [List.length_drop]; omega
      obtain ⟨c0, c1, c2, c3, rest, hdrop, hrest⟩ := cons4_of_length _ m hlen4
      have g0 : buf.getD (s + 0) 0 = c0 := by
        rw [getD_of_drop buf s 0 _ hdrop]; rfl
      have g1 : buf.getD (s + 1) 0 = c1 := by
        rw [getD_of_drop buf s 1 _ hdrop]; rfl
      have g2 : buf.getD (s + 2) 0 = c2 := by
        rw [getD_of_drop buf s 2 _ hdrop]; rfl
      have g3 : buf.getD (s + 3) 0 = c3 := by
        rw [getD_of_drop buf s 3 _ hdrop]; rfl
      rw [show s + 0 = s from rfl] at g0
      have hrestdrop : buf.drop (s + 4) = rest := by
        have h4 : (buf.drop s).drop 4 = rest := by rw [hdrop]; rfl
        rw [← h4, List.drop_drop]
      rw [decodeInPlace_four buf s d m hn, g0, g1, g2, g3]
      rw [hdrop] at hpure
      cases hv0 : b64Val c0 with
      | none => simp [hv0]
      | some v0 =>
        cases hv1 : b64Val c1 with
        | none => simp [hv0, hv1]
        | some v1 =>
          cases hv2 : b64Val c2 with
          | none => simp [hv0, hv1, hv2]
          | some v2 =>
            cases hv3 : b64Val c3 with
            | none => simp [hv0, hv1, hv2, hv3]
            | some v3 =>
              simp only [b64DecodePure, hv0, hv1, hv2, hv3,
                Option.some_bind] at hpure
              have htail : b64DecodePure rest = none := by
                cases htail : b64DecodePure rest with
                | none => rfl
                | some t => rw [htail] at hpure; simp at hpure
              simp only [Option.some_bind]
              set buf2 := ((buf.set d (v0 * 4 + v1 / 16)).set (d + 1)
                  (v1 % 16 * 16 + v2 / 4)).set (d + 2) (v2 % 4 * 64 + v3) with hbuf2
              have hlen2 : buf2.length = buf.length := by simp [hbuf2]
              have hdropbuf2 : buf2.drop (s + 4) = buf.drop (s + 4) := by
                rw [hbuf2]
                rw [drop_set_lt _ _ _ _ (by omega), drop_set_lt _ _ _ _ (by omega),
                  drop_set_lt _ _ _ _ (by omega)]
              exact ih m (by omega) buf2 (s + 4) (d + 3) (by omega)
                (by omega) (by rw [hdropbuf2, hrestdrop]; exact htail)

theorem decodeInPlace_some (n : Nat) : ∀ (buf : List Nat) (s d : Nat) (out : List Nat),
    buf.length - s = n → d ≤ s → b64DecodePure (buf.drop s) = some out →
    ∃ buf2, decodeInPlace buf s d = some (buf2, d + out.length) ∧
      buf2.length = buf.length ∧
      buf2.take (d + out.length) = buf.take d ++ out := by
  induction n using Nat.strong_induction_on with
  | _ n ih =>
    intro buf s d out hn hds hpure
    match n, hn with
    | 0, hn =>
      have hdrop : buf.drop s = [] :=
        List.eq_nil_of_length_eq_zero (by simp [List.length_drop]; omega)
      rw [hdrop] at hpure
      simp only [b64DecodePure, Option.some.injEq] at hpure
      subst hpure
      exact ⟨buf, by rw [decodeInPlace_zero buf s d hn]; simp, rfl, by simp⟩
    | 1, hn =>
      have hlen1 : (buf.drop s).length = 1 := by simp [List.length_drop]; omega
      obtain ⟨c0, hdrop⟩ := List.length_eq_one.mp hlen1
      rw [hdrop] at hpure
      simp [b64DecodePure] at hpure
    | 2, hn =>
      have hlen2 : (buf.drop s).length = 2 := by simp [List.length_drop]; omega
      obtain ⟨c0, c1, hdrop⟩ := List.length_eq_two.mp hlen2
      have g0 : buf.getD (s + 0) 0 = c0 := by
        rw [getD_of_drop buf s 0 _ hdrop]; rfl
      have g1 : buf.getD (s + 1) 0 = c1 := by
        rw [getD_of_drop buf s 1 _ hdrop]; rfl
      rw [show s + 0 = s from rfl] at g0
      rw [hdrop] at hpure
      rw [decodeInPlace_two buf s d hn, g0, g1]
      cases hv0 : b64Val c0 with
      | none => simp [b64DecodePure, hv0] at hpure
      | some v0 =>
        cases hv1 : b64Val c1 with
        | none => simp [b64DecodePure, hv0, hv1] at hpure
        | some v1 =>
          simp [b64DecodePure, hv0, hv1] at hpure
          subst hpure
          refine ⟨buf.set d (v0 * 4 + v1 / 16), by simp [Option.some_bind], by simp, ?_⟩
          simpa using take_set1 buf d (v0 * 4 + v1 / 16) (by omega)
    | 3, hn =>
      have hlen3 : (buf.drop s).length = 3 := by simp [List.length_drop]; omega
      obtain ⟨c0, c1, c2, hdrop⟩ := List.length_eq_three.mp hlen3
      have g0 : buf.getD (s + 0) 0 = c0 := by
        rw [getD_of_drop buf s 0 _ hdrop]; rfl
      have g1 : buf.getD (s + 1) 0 = c1 := by
        rw [getD_of_drop buf s 1 _ hdrop]; rfl
      have g2 : buf.getD (s + 2) 0 = c2 := by
        rw [getD_of_drop buf s 2 _ hdrop]; rfl
      rw [show s + 0 = s from rfl] at g0
      rw [hdrop] at hpure
      rw [decodeInPlace_three buf s d hn, g0, g1, g2]
      cases hv0 : b64Val c0 with
      | none => simp [b64DecodePure, hv0] at hpure
      | some v0 =>
        cases hv1 : b64Val c1 with
        | none => simp [b64DecodePure, hv0, hv1] at hpure
        | some v1 =>
          cases hv2 : b64Val c2 with
          | none => simp [b64DecodePure, hv0, hv1, hv2] at hpure
          | some v2 =>
            simp [b64DecodePure, hv0, hv1, hv2] at hpure
            subst hpure
            refine ⟨(buf.set d (v0 * 4 + v1 / 16)).set (d + 1)
              (v1 % 16 * 16 + v2 / 4), by simp [Option.some_bind], by simp, ?_⟩
            simpa using take_set2 buf d (v0 * 4 + v1 / 16)
              (v1 % 16 * 16 + v2 / 4) (by omega)
    | (m + 4), hn =>
      have hlen4 : (buf.drop s).length = m + 4 := by
        simp [List.length_drop]; omega
      obtain ⟨c0, c1, c2, c3, rest, hdrop, hrest⟩ := cons4_of_length _ m hlen4
      have g0 : buf.getD (s + 0) 0 = c0 := by
        rw [getD_of_drop buf s 0 _ hdrop]; rfl
      have g1 : buf.getD (s + 1) 0 = c1 := by
        rw [getD_of_drop buf s 1 _ hdrop]; rfl
      have g2 : buf.getD (s + 2) 0 = c2 := by
        rw [getD_of_drop buf s 2 _ hdrop]; rfl
      have g3 : buf.getD (s + 3) 0 = c3 := by
        rw [getD_of_drop buf s 3 _ hdrop]; rfl
      rw [show s + 0 = s from rfl] at g0
      have hrestdrop : buf.drop (s + 4) = rest := by
        have h4 : (buf.drop s).drop 4 = rest := by rw [hdrop]; rfl
        rw [← h4, List.drop_drop]
      rw [hdrop] at hpure
      rw [decodeInPlace_four buf s d m hn, g0, g1, g2, g3]
      cases hv0 : b64Val c0 with
      | none => simp [b64DecodePure, hv0] at hpure
      | some v0 =>
        cases hv1 : b64Val c1 with
        | none => simp [b64DecodePure, hv0, hv1] at hpure
        | some v1 =>
          cases hv2 : b64Val c2 with
          | none => simp [b64DecodePure, hv0, hv1, hv2] at hpure
          | some v2 =>
            cases hv3 : b64Val c3 with
            | none => simp [b64DecodePure, hv0, hv1, hv2, hv3] at hpure
            | some v3 =>
              cases htail : b64DecodePure rest with
              | none => simp [b64DecodePure, hv0, hv1, hv2, hv3, htail] at hpure
              | some tailOut =>
                simp [b64DecodePure, hv0, hv1, hv2, hv3, htail] at hpure
                subst hpure
                simp only [Option.some_bind]
                set buf2 := ((buf.set d (v0 * 4 + v1 / 16)).set (d + 1)
                    (v1 % 16 * 16 + v2 / 4)).set (d + 2) (v2 % 4 * 64 + v3)
                  with hbuf2
                have hlenb2 : buf2.length = buf.length := by simp [hbuf2]
                have hdropbuf2 : buf2.drop (s + 4) = rest := by
                  rw [hbuf2, drop_set_lt _ _ _ _ (by omega),
                    drop_set_lt _ _ _ _ (by omega),
                    drop_set_lt _ _ _ _ (by omega), hrestdrop]
                obtain ⟨buf3, heq3, hlen3, htake3⟩ :=
                  ih m (by omega) buf2 (s + 4) (d + 3) tailOut
                    (by omega) (by omega) (by rw [hdropbuf2]; exact htail)
                refine ⟨buf3, ?_, by rw [hlen3, hlenb2], ?_⟩
                · rw [heq3]
                  congr 2
                  simp
                  omega
                · have hout : d + ((v0 * 4 + v1 / 16) :: (v1 % 16 * 16 + v2 / 4)
                      :: (v2 % 4 * 64 + v3) :: tailOut).length
                      = d + 3 + tailOut.length := by simp; omega
                  rw [hout, htake3]
                  have htk : buf2.take (d + 3) = buf.take d ++
                      [v0 * 4 + v1 / 16, v1 % 16 * 16 + v2 / 4, v2 % 4 * 64 + v3] := by
                    rw [hbuf2]
                    exact take_set3 buf d _ _ _ (by omega)
                  rw [htk]
                  simp

/-- C8: The allocating decode (`reuse=false`) and the in-place
buffer-reuse decode (`reuse=true`) of `B64Decode` fail on exactly the
same inputs and return the same decoded byte string on success. -/
theorem B64Decode_reuse_equiv (b64 : List Nat) :
    B64Decode b64 true = B64Decode b64 false := by
  unfold B64Decode
  simp only [if_true]
  cases hp : b64DecodePure b64 with
  | none =>
    have h := decodeInPlace_none b64.length b64 0 0 (by simp) (le_refl 0)
      (by simpa using hp)
    simp [h]
  | some out =>
    obtain ⟨buf2, heq, hlen, htake⟩ := decodeInPlace_some b64.length b64 0 0 out
      (by simp) (le_refl 0) (by simpa using hp)
    rw [heq]
    simpa using htake

end Garcon
